import Mathlib

/-!
Verification of the bounded lock-free MPMC queue (`src/queue.rs`), its adaptive
`Backoff` helper, and the `LockFreeThreadPool` constructor (`src/lib.rs`).

The Rust code is embedded shallowly under a sequential execution model: a
single thread runs `push`/`pop`, so every `compare_exchange_weak` whose
expectation matches succeeds, every atomic load observes the current state, and
memory-ordering annotations are no-ops.  `usize` arithmetic is modelled on
`Nat`; `wrapping_add` is addition followed by `% 2 ^ 64`, and plain `+` on
positions is left unreduced (it is proved never to overflow on reachable
states).  `MaybeUninit<T>` storage is modelled as `Option`: `none` is
uninitialised memory, and `ptr::read`/`ptr::write` read and write the field.

Each `push`/`pop` call is a retry loop; one iteration of the loop body is
embedded as `pushStep` / `popStep`, returning either the Rust result or a
`retry` marker for the branches that loop again.  Sequentially a `retry`
iteration leaves the queue unchanged and reloads the same position, so the call
terminates iff the first iteration does not yield `retry`; this is proved for
every reachable state.
-/

namespace LFQueue

/-- Modulus of `usize` arithmetic on a 64-bit target. -/
def usizeMod : Nat := 2 ^ 64

/-- Fuel-driven doubling search: smallest power of two that is at least `n`,
starting from accumulator `acc` (a power of two), with at most `fuel`
doublings. -/
def nextPowTwoAux (n : Nat) : Nat → Nat → Nat
  | 0, acc => acc
  | fuel + 1, acc => if n ≤ acc then acc else nextPowTwoAux n fuel (2 * acc)

/-- Rust's `usize::next_power_of_two`: the smallest power of two greater than
or equal to `n` (for `n` in the non-overflowing range). -/
def nextPowerOfTwo (n : Nat) : Nat := nextPowTwoAux n 64 1

/-- A slot in a queue: `stamp` tracks the state of this slot, `value` is the
`MaybeUninit` storage (`none` = uninitialised). -/
structure Slot (α : Type) where
  stamp : Nat
  value : Option α
deriving DecidableEq

instance {α : Type} : Inhabited (Slot α) := ⟨⟨0, none⟩⟩

/-- The bounded MPMC queue of `src/queue.rs`: `head` is where elements are
popped from, `tail` where they are pushed to, `buffer` holds the slots, and
`one_lap` is the stamp value representing one complete lap. -/
structure ArrayQueue (α : Type) where
  head : Nat
  tail : Nat
  buffer : List (Slot α)
  one_lap : Nat
deriving DecidableEq

variable {α : Type}

/-- `ArrayQueue::capacity`: the length of the slot buffer. -/
def capacity (q : ArrayQueue α) : Nat := q.buffer.length

/-- `ArrayQueue::new(cap)`.  `assert!(cap > 0)` panics on `cap = 0`, and
`(cap + 1).next_power_of_two()` overflows (panicking under debug assertions,
the mode under which the construction-time asserts of this crate are active)
when `2 ^ 63 < cap + 1`; in both cases no queue value is produced, modelled by
`none`.  `cap` is a `usize`, so calls with `cap ≥ 2 ^ 64` do not exist; they
are also sent to `none`.  Otherwise slot `i` is initialised with stamp `i`,
head and tail start at 0, and `one_lap` is the smallest power of two greater
than `cap`. -/
def ArrayQueue.new (cap : Nat) : Option (ArrayQueue α) :=
  if cap = 0 ∨ 2 ^ 63 < cap + 1 then none
  else
    some { head := 0
           tail := 0
           buffer := (List.range cap).map fun i => { stamp := i, value := none }
           one_lap := nextPowerOfTwo (cap + 1) }

/-- Result of one iteration of the `ArrayQueue::push` retry loop:
`ok` = `return Ok(())`, `err v` = `return Err(v)`, `retry` = the loop runs
another iteration (CAS loss, observed mid-pop, or stale stamp). -/
inductive PushOutcome (α : Type) where
  | ok : PushOutcome α
  | err (v : α) : PushOutcome α
  | retry : PushOutcome α
deriving DecidableEq

/-- Result of one iteration of the `ArrayQueue::pop` retry loop: `popped v` =
`return Some(..)` where `v` is the `ptr::read` of the slot's `MaybeUninit`
storage (`some` when it was initialised), `empty` = `return None`, `retry` =
the loop runs another iteration. -/
inductive PopOutcome (α : Type) where
  | popped (v : Option α) : PopOutcome α
  | empty : PopOutcome α
  | retry : PopOutcome α
deriving DecidableEq

/-- One iteration of the `ArrayQueue::push` loop body, sequential semantics.
`index`/`lap` decode the tail position, `next_tail` either stays on the same
lap or jumps to the next lap at index zero (`wrapping_add`), and the three
branches follow the source: stamp matches the tail (claim the slot via CAS,
write the value, publish stamp `tail + 1`), slot one lap behind (report
fullness if `head` is one lap behind `tail`, otherwise retry), or stale stamp
(retry). -/
def pushStep (q : ArrayQueue α) (v : α) : ArrayQueue α × PushOutcome α :=
  let tail := q.tail
  let index := tail &&& (q.one_lap - 1)
  let lap := tail &&& ((usizeMod - 1) ^^^ (q.one_lap - 1))
  let next_tail := if index + 1 < capacity q then tail + 1
                   else (lap + q.one_lap) % usizeMod
  let slot := q.buffer.getD index default
  let stamp := slot.stamp
  if tail = stamp then
    ({ q with tail := next_tail
              buffer := q.buffer.set index { stamp := tail + 1, value := some v } },
     PushOutcome.ok)
  else if (stamp + q.one_lap) % usizeMod = tail + 1 then
    if (q.head + q.one_lap) % usizeMod = tail then (q, PushOutcome.err v)
    else (q, PushOutcome.retry)
  else (q, PushOutcome.retry)

/-- One iteration of the `ArrayQueue::pop` loop body, sequential semantics,
symmetric to `pushStep`: stamp one ahead of head (claim the slot, read the
value, publish stamp `head.wrapping_add(one_lap)`), stamp equal to head
(report emptiness if `tail == head`, otherwise retry), or stale stamp
(retry). -/
def popStep (q : ArrayQueue α) : ArrayQueue α × PopOutcome α :=
  let head := q.head
  let index := head &&& (q.one_lap - 1)
  let lap := head &&& ((usizeMod - 1) ^^^ (q.one_lap - 1))
  let slot := q.buffer.getD index default
  let stamp := slot.stamp
  if head + 1 = stamp then
    let next := if index + 1 < capacity q then head + 1
                else (lap + q.one_lap) % usizeMod
    ({ q with head := next
              buffer := q.buffer.set index
                { stamp := (head + q.one_lap) % usizeMod, value := slot.value } },
     PopOutcome.popped slot.value)
  else if stamp = head then
    if q.tail = head then (q, PopOutcome.empty) else (q, PopOutcome.retry)
  else (q, PopOutcome.retry)

/-- The full `ArrayQueue::push` retry loop, sequential semantics, with an
iteration budget: `none` means the loop is still running after `fuel`
iterations (i.e. the call has not returned), `some` is the returned result
together with the final state. -/
def pushLoop (q : ArrayQueue α) (v : α) : Nat → Option (ArrayQueue α × PushOutcome α)
  | 0 => none
  | fuel + 1 =>
      match pushStep q v with
      | (q', PushOutcome.retry) => pushLoop q' v fuel
      | r => some r

/-- The full `ArrayQueue::pop` retry loop, sequential semantics, with an
iteration budget (same convention as `pushLoop`). -/
def popLoop (q : ArrayQueue α) : Nat → Option (ArrayQueue α × PopOutcome α)
  | 0 => none
  | fuel + 1 =>
      match popStep q with
      | (q', PopOutcome.retry) => popLoop q' fuel
      | r => some r

/-- `ArrayQueue::is_empty`. -/
def is_empty (q : ArrayQueue α) : Bool := q.tail == q.head

/-- `ArrayQueue::is_full`. -/
def is_full (q : ArrayQueue α) : Bool := (q.head + q.one_lap) % usizeMod == q.tail

/-- The `Drop` impl of `ArrayQueue`: the list of buffer indices whose value is
`ptr::drop_in_place`d, in destruction order.  `hix`/`tix` decode the head and
tail indices, `len` is the computed number of occupied slots, and entry `i` of
the walk wraps through `cap` (never through the `[cap, one_lap)` gap). -/
def dropIndices (q : ArrayQueue α) : List Nat :=
  let head := q.head
  let tail := q.tail
  let hix := head &&& (q.one_lap - 1)
  let tix := tail &&& (q.one_lap - 1)
  let len := if hix < tix then tix - hix
             else if tix < hix then capacity q - hix + tix
             else if tail = head then 0
             else capacity q
  (List.range len).map fun i =>
    if hix + i < capacity q then hix + i else hix + i - capacity q

/-- `SPIN_LIMIT` of `src/queue.rs`. -/
def SPIN_LIMIT : Nat := 6

/-- `YIELD_LIMIT` of `src/queue.rs`. -/
def YIELD_LIMIT : Nat := 10

/-- The `Backoff` state: the `step` cell (a `u32`; it is only ever incremented
while at most `YIELD_LIMIT`, so it never overflows). -/
structure Backoff where
  step : Nat
deriving DecidableEq

/-- `Backoff::new`. -/
def Backoff.new : Backoff := ⟨0⟩

/-- `Backoff::reset`. -/
def Backoff.reset (_ : Backoff) : Backoff := ⟨0⟩

/-- `Backoff::spin`: busy-waits `1 << step.min(SPIN_LIMIT)` spin-loop hints
(returned as the first component) and increments `step` when
`step ≤ SPIN_LIMIT`. -/
def Backoff.spin (b : Backoff) : Nat × Backoff :=
  (1 <<< min b.step SPIN_LIMIT,
   if b.step ≤ SPIN_LIMIT then ⟨b.step + 1⟩ else b)

/-- Observable effect of `Backoff::snooze`: either a busy-wait of `hints`
spin-loop hints, or a `thread::yield_now()`. -/
inductive SnoozeEffect where
  | spun (hints : Nat) : SnoozeEffect
  | yielded : SnoozeEffect
deriving DecidableEq

/-- `Backoff::snooze`: busy-waits `1 << step` hints when `step ≤ SPIN_LIMIT`
and otherwise yields the thread; increments `step` when
`step ≤ YIELD_LIMIT`. -/
def Backoff.snooze (b : Backoff) : SnoozeEffect × Backoff :=
  (if b.step ≤ SPIN_LIMIT then SnoozeEffect.spun (1 <<< b.step)
   else SnoozeEffect.yielded,
   if b.step ≤ YIELD_LIMIT then ⟨b.step + 1⟩ else b)

/-- `Backoff::is_completed`. -/
def Backoff.is_completed (b : Backoff) : Bool := YIELD_LIMIT < b.step

/-- The `LockFreeThreadPool` of `src/lib.rs`, with the thread handles of the
`workers` vector abstracted to their count, jobs abstracted to values of type
`α`, and the shared `running` flag. -/
structure LockFreeThreadPool (α : Type) where
  workers : Nat
  job_queue : ArrayQueue α
  running : Bool
deriving DecidableEq

/-- `LockFreeThreadPool::new(size, queue_capacity)`: `assert!(size > 0)` and
`assert!(queue_capacity > 0)` panic on zero arguments (modelled by `none`);
otherwise the pool owns a fresh queue of capacity `queue_capacity`, spawns
`size` workers and sets `running = true`. -/
def LockFreeThreadPool.new (size queue_capacity : Nat) :
    Option (LockFreeThreadPool α) :=
  if size = 0 then none
  else if queue_capacity = 0 then none
  else (ArrayQueue.new queue_capacity).map fun q =>
    { workers := size, job_queue := q, running := true }

/-- A queue operation issued by the (single-threaded) client. -/
inductive Op (α : Type) where
  | push (v : α) : Op α
  | pop : Op α
deriving DecidableEq

/-- Runs a list of operations, threading the queue state and counting
successful pushes and successful pops (a `retry` outcome is never counted; on
reachable states it never occurs). -/
def runStats (acc : ArrayQueue α × Nat × Nat) : List (Op α) → ArrayQueue α × Nat × Nat
  | [] => acc
  | Op.push v :: ops =>
      let r := pushStep acc.1 v
      runStats (r.1,
        (match r.2 with | PushOutcome.ok => acc.2.1 + 1 | _ => acc.2.1),
        acc.2.2) ops
  | Op.pop :: ops =>
      let r := popStep acc.1
      runStats (r.1, acc.2.1,
        (match r.2 with | PopOutcome.popped _ => acc.2.2 + 1 | _ => acc.2.2)) ops

/-- `Reachable cap q np nq`: starting from `ArrayQueue::new(cap)`, some
sequence of sequential `push`/`pop` calls leads to state `q` with `np`
successful pushes and `nq` successful pops in total. -/
def Reachable (cap : Nat) (q : ArrayQueue α) (np nq : Nat) : Prop :=
  ∃ (q0 : ArrayQueue α) (ops : List (Op α)),
    ArrayQueue.new cap = some q0 ∧ runStats (q0, 0, 0) ops = (q, np, nq)

/-! ### Canonical reachable states

Sequentially, the state of a queue of capacity `cap` after `np` successful
pushes and `nq` successful pops (`nq ≤ np ≤ nq + cap`) is determined up to the
values pushed.  `pos cap L n` is the `usize` position claimed by the `n`-th
operation on either endpoint: positions walk `lap*L + 0, …, lap*L + cap - 1`
and then jump to `(lap+1)*L`, wrapping modulo `2 ^ 64`.  `mkQueue` builds this
canonical state; the step theorems below prove that `pushStep`/`popStep` map
canonical states to canonical states. -/

/-- The `usize` position claimed by operation number `n` (lap `n / cap`, index
`n % cap`), wrapping modulo `2 ^ 64`. -/
def pos (cap L n : Nat) : Nat := (n / cap * L + n % cap) % usizeMod

/-- The smallest operation number `m ≥ nq` with `m % cap = i`: the number of
the next pop that will use slot `i` (for `i < cap`). -/
def mSlot (cap nq i : Nat) : Nat := nq + ((i + cap - nq % cap) % cap)

/-- The largest operation number `k < np` with `k % cap = i`: the number of
the most recent push that wrote slot `i` (defined when `i < np`). -/
def lastPush (cap np i : Nat) : Nat := i + cap * ((np - 1 - i) / cap)

/-- The canonical content of slot `i` after `np` successful pushes (the `k`-th
push wrote `vals k`) and `nq` successful pops: occupied slots (the next pop
`mSlot cap nq i` would be a push already performed, `mSlot cap nq i < np`)
carry stamp `position + 1`; free slots carry the stamp of the next producer
position for this slot; the storage holds the last value ever written. -/
def slotAt (cap L : Nat) (vals : Nat → α) (np nq i : Nat) : Slot α :=
  { stamp := if mSlot cap nq i < np then pos cap L (mSlot cap nq i) + 1
             else pos cap L (mSlot cap nq i)
    value := if i < np then some (vals (lastPush cap np i)) else none }

/-- The canonical queue state after `np` successful pushes (with values
`vals`) and `nq` successful pops. -/
def mkQueue (cap : Nat) (vals : Nat → α) (np nq : Nat) : ArrayQueue α :=
  { head := pos cap (nextPowerOfTwo (cap + 1)) nq
    tail := pos cap (nextPowerOfTwo (cap + 1)) np
    buffer := (List.range cap).map (slotAt cap (nextPowerOfTwo (cap + 1)) vals np nq)
    one_lap := nextPowerOfTwo (cap + 1) }

/-! ### Concrete scenario (claim C1) -/

/-- State after `ArrayQueue::new(4)` (element type `Nat`). -/
def c1q0 : ArrayQueue Nat := (ArrayQueue.new 4).getD ⟨0, 0, [], 0⟩

/-- State after `push 1`. -/
def c1q1 : ArrayQueue Nat := (pushStep c1q0 1).1

/-- State after `push 2`. -/
def c1q2 : ArrayQueue Nat := (pushStep c1q1 2).1

/-- State after `push 3`. -/
def c1q3 : ArrayQueue Nat := (pushStep c1q2 3).1

/-- State after `push 4`. -/
def c1q4 : ArrayQueue Nat := (pushStep c1q3 4).1

/-- State after the failing `push 5`. -/
def c1q5 : ArrayQueue Nat := (pushStep c1q4 5).1

/-- State after the first `pop`. -/
def c1q6 : ArrayQueue Nat := (popStep c1q5).1

/-- State after `push 6`. -/
def c1q7 : ArrayQueue Nat := (pushStep c1q6 6).1

/-- State after the second `pop`. -/
def c1q8 : ArrayQueue Nat := (popStep c1q7).1

/-- State after the third `pop`. -/
def c1q9 : ArrayQueue Nat := (popStep c1q8).1

/-- State after the fourth `pop`. -/
def c1q10 : ArrayQueue Nat := (popStep c1q9).1

/-- State after the fifth `pop`. -/
def c1q11 : ArrayQueue Nat := (popStep c1q10).1

/-- C1: for a queue created with `new(4)`, the sequential call sequence
push 1, push 2, push 3, push 4 all return `Ok`; push 5 returns `Err(5)`;
pop returns `Some(1)`; push 6 returns `Ok`; and the following pops return
`Some(2)`, `Some(3)`, `Some(4)`, `Some(6)` and then `None`, in that order. -/
theorem c1_concrete_scenario :
    ArrayQueue.new 4 = some c1q0 ∧
    (pushStep c1q0 1).2 = PushOutcome.ok ∧
    (pushStep c1q1 2).2 = PushOutcome.ok ∧
    (pushStep c1q2 3).2 = PushOutcome.ok ∧
    (pushStep c1q3 4).2 = PushOutcome.ok ∧
    (pushStep c1q4 5).2 = PushOutcome.err 5 ∧
    (popStep c1q5).2 = PopOutcome.popped (some 1) ∧
    (pushStep c1q6 6).2 = PushOutcome.ok ∧
    (popStep c1q7).2 = PopOutcome.popped (some 2) ∧
    (popStep c1q8).2 = PopOutcome.popped (some 3) ∧
    (popStep c1q9).2 = PopOutcome.popped (some 4) ∧
    (popStep c1q10).2 = PopOutcome.popped (some 6) ∧
    (popStep c1q11).2 = PopOutcome.empty := by
  decide

/-! ### Backoff (claim C9) -/

/-- C9: for every internal counter value `step`, `Backoff::spin()` busy-waits
`2 ^ min step 6` spin-loop hints and increments `step` exactly when
`step ≤ 6`; `Backoff::snooze()` busy-waits `2 ^ step` hints if `step ≤ 6` and
otherwise yields the thread, and increments `step` exactly when `step ≤ 10`;
with `SPIN_LIMIT = 6` and `YIELD_LIMIT = 10`. -/
theorem c9_backoff_behaviour :
    SPIN_LIMIT = 6 ∧ YIELD_LIMIT = 10 ∧
    ∀ step : Nat,
      (Backoff.spin ⟨step⟩).1 = 2 ^ min step 6 ∧
      ((Backoff.spin ⟨step⟩).2.step = if step ≤ 6 then step + 1 else step) ∧
      ((Backoff.snooze ⟨step⟩).1 =
        if step ≤ 6 then SnoozeEffect.spun (2 ^ step) else SnoozeEffect.yielded) ∧
      ((Backoff.snooze ⟨step⟩).2.step = if step ≤ 10 then step + 1 else step) := by
  refine ⟨rfl, rfl, fun step => ⟨?_, ?_, ?_, ?_⟩⟩
  · simp [Backoff.spin, Nat.shiftLeft_eq, SPIN_LIMIT]
  · simp only [Backoff.spin, SPIN_LIMIT]
    split <;> rfl
  · simp only [Backoff.snooze, SPIN_LIMIT, Nat.shiftLeft_eq, Nat.one_mul]
  · simp only [Backoff.snooze, YIELD_LIMIT]
    split <;> rfl

/-! ### Construction preconditions (claim C10) -/

/-- A successful `new(cap)` implies `cap` passed both the assertion and the
overflow check. -/
theorem new_bounds {cap : Nat} {q : ArrayQueue α}
    (h : ArrayQueue.new cap = some q) : 0 < cap ∧ cap + 1 ≤ 2 ^ 63 := by
  simp only [ArrayQueue.new] at h
  split at h
  · exact absurd h (by simp)
  · rename_i hcond
    push_neg at hcond
    omega

/-- The queue produced by a successful `new(cap)` is the literal initial
state. -/
theorem new_eq {cap : Nat} {q : ArrayQueue α}
    (h : ArrayQueue.new cap = some q) :
    q = { head := 0
          tail := 0
          buffer := (List.range cap).map fun i => { stamp := i, value := none }
          one_lap := nextPowerOfTwo (cap + 1) } := by
  simp only [ArrayQueue.new] at h
  split at h
  · exact absurd h (by simp)
  · exact (Option.some.inj h).symm

/-- A successful `new(cap)` produces a queue of capacity `cap`. -/
theorem capacity_new {cap : Nat} {q : ArrayQueue α}
    (h : ArrayQueue.new cap = some q) : capacity q = cap := by
  rw [new_eq h]
  simp [capacity]

/-- C10: construction with violated preconditions is fatal:
`ArrayQueue::new(0)` aborts (assertion failure), and
`LockFreeThreadPool::new(size, queue_capacity)` aborts when `size == 0` or
`queue_capacity == 0`; no queue or pool value is ever produced with zero
capacity or zero workers. -/
theorem c10_zero_construction_aborts (α : Type) :
    ArrayQueue.new (α := α) 0 = none ∧
    (∀ qc : Nat, LockFreeThreadPool.new (α := α) 0 qc = none) ∧
    (∀ s : Nat, LockFreeThreadPool.new (α := α) s 0 = none) ∧
    (∀ (cap : Nat) (q : ArrayQueue α), ArrayQueue.new cap = some q →
      0 < capacity q) ∧
    (∀ (s c : Nat) (p : LockFreeThreadPool α), LockFreeThreadPool.new s c = some p →
      0 < p.workers ∧ 0 < capacity p.job_queue) := by
  refine ⟨by simp [ArrayQueue.new], by simp [LockFreeThreadPool.new], ?_, ?_, ?_⟩
  · intro s
    simp only [LockFreeThreadPool.new]
    split
    · rfl
    · rfl
  · intro cap q hq
    have := capacity_new hq
    have := new_bounds hq
    omega
  · intro s c p hp
    simp only [LockFreeThreadPool.new] at hp
    split at hp
    · exact absurd hp (by simp)
    · split at hp
      · exact absurd hp (by simp)
      · rename_i hs hc
        obtain ⟨q, hq, rfl⟩ := Option.map_eq_some'.mp hp
        have h1 := capacity_new hq
        have h2 := new_bounds hq
        constructor
        · show 0 < s
          omega
        · show 0 < capacity q
          omega

/-- Witness for C10: the theorem applied at concrete inputs. -/
theorem c10_zero_construction_aborts_witness :
    0 < capacity ((ArrayQueue.new (α := Nat) 4).getD ⟨0, 0, [], 0⟩) ∧
    0 < ((LockFreeThreadPool.new (α := Nat) 2 4).getD
          ⟨0, ⟨0, 0, [], 0⟩, false⟩).workers := by
  refine ⟨(c10_zero_construction_aborts Nat).2.2.2.1 4 _ (by decide), ?_⟩
  exact (((c10_zero_construction_aborts Nat).2.2.2.2 2 4 _ (by decide)).1)


/-! ### Characterisation of `next_power_of_two` -/

/-- Invariant of the doubling search: starting from `2 ^ j` with enough fuel,
it returns the smallest power of two `≥ n` among exponents `≥ j`. -/
theorem nextPowTwoAux_spec :
    ∀ (fuel j n : Nat), 0 < n → n ≤ 2 ^ (j + fuel) →
      ∃ k, j ≤ k ∧ nextPowTwoAux n fuel (2 ^ j) = 2 ^ k ∧ n ≤ 2 ^ k ∧
        ∀ m, j ≤ m → n ≤ 2 ^ m → k ≤ m := by
  intro fuel
  induction fuel with
  | zero =>
      intro j n _ hle
      exact ⟨j, le_refl j, rfl, by simpa using hle, fun m hm _ => hm⟩
  | succ fuel ih =>
      intro j n hn hle
      by_cases h : n ≤ 2 ^ j
      · exact ⟨j, le_refl j, by simp [nextPowTwoAux, h], h, fun m hm _ => hm⟩
      · have h2 : (2 : Nat) * 2 ^ j = 2 ^ (j + 1) := by rw [pow_succ]; ring
        have hle' : n ≤ 2 ^ (j + 1 + fuel) := by
          have he : j + 1 + fuel = j + (fuel + 1) := by omega
          rw [he]; exact hle
        obtain ⟨k, hk1, hk2, hk3, hk4⟩ := ih (j + 1) n hn hle'
        refine ⟨k, by omega, ?_, hk3, ?_⟩
        · simp only [nextPowTwoAux, if_neg h, h2]
          exact hk2
        · intro m hm hnm
          rcases Nat.eq_or_lt_of_le hm with rfl | hlt
          · exact absurd hnm h
          · exact hk4 m (by omega) hnm

/-- For `0 < cap` with `cap + 1 ≤ 2 ^ 63`, `one_lap = nextPowerOfTwo (cap+1)`
is a power of two `2 ^ k` with `k ≤ 63`, is at least `cap + 1`, and is minimal
among powers of two `≥ cap + 1`. -/
theorem one_lap_spec {cap : Nat} (h1 : 0 < cap) (h2 : cap + 1 ≤ 2 ^ 63) :
    ∃ k, k ≤ 63 ∧ nextPowerOfTwo (cap + 1) = 2 ^ k ∧ cap + 1 ≤ 2 ^ k ∧
      ∀ m, cap + 1 ≤ 2 ^ m → k ≤ m := by
  have hle : cap + 1 ≤ 2 ^ (0 + 64) := le_trans h2 (by norm_num)
  obtain ⟨k, _, hk2, hk3, hk4⟩ := nextPowTwoAux_spec 64 0 (cap + 1) (by omega) hle
  refine ⟨k, hk4 63 (by omega) h2, ?_, hk3, fun m hm => hk4 m (by omega) hm⟩
  have h0 : (2 : Nat) ^ (0 : Nat) = 1 := by norm_num
  rw [nextPowerOfTwo, ← h0]
  exact hk2

/-! ### Bit-mask arithmetic -/

/-- A positive multiple of `L` strictly below another multiple `W` of `L` is
at least `L` below it. -/
theorem mult_lt_bound {L W x : Nat} (_hL : 0 < L) (hdx : L ∣ x) (hdW : L ∣ W)
    (hx : x < W) : x + L ≤ W := by
  obtain ⟨t, rfl⟩ := hdx
  obtain ⟨s, rfl⟩ := hdW
  have ht : t < s := Nat.lt_of_mul_lt_mul_left hx
  have h1 : L * (t + 1) ≤ L * s := Nat.mul_le_mul (le_refl L) (by omega)
  calc L * t + L = L * (t + 1) := by ring
    _ ≤ L * s := h1

/-- `x & !(2^k - 1)` on a 64-bit word clears the low `k` bits. -/
theorem land_compl_mask {a k : Nat} (hk : k ≤ 64) (ha : a < 2 ^ 64) :
    a &&& ((2 ^ 64 - 1) ^^^ (2 ^ k - 1)) = a / 2 ^ k * 2 ^ k := by
  have hsh : a / 2 ^ k * 2 ^ k = (a >>> k) <<< k := by
    rw [Nat.shiftLeft_eq, Nat.shiftRight_eq_div_pow]
  rw [hsh]
  apply Nat.eq_of_testBit_eq
  intro i
  simp only [Nat.testBit_and, Nat.testBit_xor, Nat.testBit_two_pow_sub_one,
    Nat.testBit_shiftLeft, Nat.testBit_shiftRight]
  by_cases hik : k ≤ i
  · have hki : k + (i - k) = i := by omega
    rw [hki]
    by_cases hi64 : i < 64
    · simp [hik, hi64, Nat.not_lt.mpr hik, ge_iff_le]
    · have hz : a.testBit i = false :=
        Nat.testBit_lt_two_pow
          (lt_of_lt_of_le ha (Nat.pow_le_pow_right (by norm_num) (by omega)))
      simp [hz, hik, hi64, ge_iff_le]
  · have hik' : i < k := Nat.lt_of_not_le hik
    have hi64 : i < 64 := lt_of_lt_of_le hik' hk
    simp [hik, hik', hi64, ge_iff_le]

/-! ### Division and modulus along the position walk -/

/-- Incrementing an operation number inside a lap. -/
theorem succ_div_mod_same_lap {n cap : Nat} (h : n % cap + 1 < cap) :
    (n + 1) % cap = n % cap + 1 ∧ (n + 1) / cap = n / cap := by
  have hcap : 0 < cap := by omega
  have hd := Nat.div_add_mod n cap
  have heq : n + 1 = cap * (n / cap) + (n % cap + 1) := by omega
  constructor
  · rw [heq, Nat.mul_add_mod, Nat.mod_eq_of_lt h]
  · rw [heq, Nat.mul_add_div hcap, Nat.div_eq_of_lt h]
    omega

/-- Incrementing an operation number across a lap boundary. -/
theorem succ_div_mod_new_lap {n cap : Nat} (hcap : 0 < cap)
    (h : n % cap + 1 = cap) :
    (n + 1) % cap = 0 ∧ (n + 1) / cap = n / cap + 1 := by
  have hd := Nat.div_add_mod n cap
  have heq : n + 1 = cap * (n / cap + 1) := by rw [Nat.mul_succ]; omega
  constructor
  · rw [heq, Nat.mul_mod_right]
  · rw [heq, Nat.mul_div_cancel_left _ hcap]

/-! ### Position arithmetic -/

/-- Decomposition of a position: `pos cap L n = x + n % cap` where `x` is the
wrapped lap part, a multiple of `L` at least `L` below `2 ^ 64`. -/
theorem pos_parts {cap L k : Nat} (hcap : 0 < cap) (hcapL : cap < L)
    (hLk : L = 2 ^ k) (hk : k ≤ 63) (n : Nat) :
    pos cap L n = (n / cap * L) % usizeMod + n % cap ∧
      L ∣ (n / cap * L) % usizeMod ∧
      (n / cap * L) % usizeMod + L ≤ usizeMod := by
  have hW : usizeMod = 2 ^ 64 := rfl
  have hL0 : 0 < L := by omega
  have hdW : L ∣ usizeMod := by rw [hLk, hW]; exact pow_dvd_pow 2 (by omega)
  have hxd : L ∣ (n / cap * L) % usizeMod :=
    (Nat.dvd_mod_iff hdW).mpr (Dvd.intro_left _ rfl)
  have hxW : (n / cap * L) % usizeMod < usizeMod := Nat.mod_lt _ (by rw [hW]; positivity)
  have hxL : (n / cap * L) % usizeMod + L ≤ usizeMod := mult_lt_bound hL0 hxd hdW hxW
  have hr : n % cap < cap := Nat.mod_lt _ hcap
  have hL63 : L ≤ 2 ^ 63 := by
    rw [hLk]; exact Nat.pow_le_pow_right (by norm_num) hk
  refine ⟨?_, hxd, hxL⟩
  rw [pos, Nat.add_mod]
  have h1 : n % cap % usizeMod = n % cap := by
    apply Nat.mod_eq_of_lt; omega
  rw [h1]
  apply Nat.mod_eq_of_lt
  omega

/-- A position is a legal `usize`. -/
theorem pos_lt (cap L n : Nat) : pos cap L n < usizeMod :=
  Nat.mod_lt _ (by rw [show usizeMod = 2 ^ 64 from rfl]; positivity)

/-- The low bits of a position, reduced mod `L`, give the slot index. -/
theorem pos_mod {cap L k : Nat} (hcap : 0 < cap) (hcapL : cap < L)
    (hLk : L = 2 ^ k) (hk : k ≤ 63) (n : Nat) : pos cap L n % L = n % cap := by
  obtain ⟨hx1, hx3, hx4⟩ := pos_parts hcap hcapL hLk hk n
  obtain ⟨t, hxt⟩ := hx3
  rw [hx1, hxt, Nat.mul_add_mod]
  exact Nat.mod_eq_of_lt (lt_trans (Nat.mod_lt _ hcap) hcapL)

/-- `pos & (one_lap - 1)` decodes the slot index. -/
theorem pos_land {cap L k : Nat} (hcap : 0 < cap) (hcapL : cap < L)
    (hLk : L = 2 ^ k) (hk : k ≤ 63) (n : Nat) :
    pos cap L n &&& (L - 1) = n % cap := by
  rw [hLk, Nat.and_pow_two_sub_one_eq_mod, ← hLk]
  exact pos_mod hcap hcapL hLk hk n

/-- `pos & !(one_lap - 1)` decodes the wrapped lap part. -/
theorem pos_lap_land {cap L k : Nat} (hcap : 0 < cap) (hcapL : cap < L)
    (hLk : L = 2 ^ k) (hk : k ≤ 63) (n : Nat) :
    pos cap L n &&& ((usizeMod - 1) ^^^ (L - 1)) = (n / cap * L) % usizeMod := by
  obtain ⟨hx1, hx3, hx4⟩ := pos_parts hcap hcapL hLk hk n
  have hL0 : 0 < L := by omega
  have hr : n % cap < L := lt_trans (Nat.mod_lt _ hcap) hcapL
  have hplt : pos cap L n < 2 ^ 64 := pos_lt cap L n
  have hmask : pos cap L n &&& ((2 ^ 64 - 1) ^^^ (2 ^ k - 1))
      = pos cap L n / 2 ^ k * 2 ^ k := land_compl_mask (by omega) hplt
  calc pos cap L n &&& ((usizeMod - 1) ^^^ (L - 1))
      = pos cap L n / L * L := by rw [← hLk] at hmask; exact hmask
    _ = (n / cap * L) % usizeMod := by
        obtain ⟨t, hxt⟩ := hx3
        rw [hx1, hxt, Nat.mul_add_div hL0, Nat.div_eq_of_lt hr, Nat.add_zero,
          Nat.mul_comm, ← hxt]

/-- A position is never the top word value, so `pos + 1` does not overflow. -/
theorem pos_succ_lt {cap L k : Nat} (hcap : 0 < cap) (hcapL : cap < L)
    (hLk : L = 2 ^ k) (hk : k ≤ 63) (n : Nat) : pos cap L n + 1 < usizeMod := by
  obtain ⟨hx1, hx3, hx4⟩ := pos_parts hcap hcapL hLk hk n
  have hr : n % cap < cap := Nat.mod_lt _ hcap
  omega

/-- Stepping a position inside a lap is ordinary increment. -/
theorem pos_succ {cap L k : Nat} (hcap : 0 < cap) (hcapL : cap < L)
    (hLk : L = 2 ^ k) (hk : k ≤ 63) {n : Nat} (h : n % cap + 1 < cap) :
    pos cap L (n + 1) = pos cap L n + 1 := by
  obtain ⟨hm, hd⟩ := succ_div_mod_same_lap h
  obtain ⟨hx1, _, _⟩ := pos_parts hcap hcapL hLk hk n
  obtain ⟨hy1, _, _⟩ := pos_parts hcap hcapL hLk hk (n + 1)
  rw [hy1, hx1, hm, hd]
  omega

/-- Stepping a position across the lap boundary jumps to the next lap. -/
theorem pos_wrap {cap L k : Nat} (hcap : 0 < cap) (_hcapL : cap < L)
    (hLk : L = 2 ^ k) (hk : k ≤ 63) {n : Nat} (h : n % cap + 1 = cap) :
    pos cap L (n + 1) = ((n / cap * L) % usizeMod + L) % usizeMod := by
  obtain ⟨hm, hd⟩ := succ_div_mod_new_lap hcap h
  have hLW : L < usizeMod := by
    have : L ≤ 2 ^ 63 := by rw [hLk]; exact Nat.pow_le_pow_right (by norm_num) hk
    have hW : usizeMod = 2 ^ 64 := rfl
    omega
  rw [pos, hm, hd, Nat.add_zero, Nat.add_mul, Nat.one_mul, Nat.add_mod,
    Nat.mod_eq_of_lt hLW]

/-- Advancing an operation number by a full lap adds `one_lap` to the
position, wrapping. -/
theorem pos_add_cap {cap L k : Nat} (hcap : 0 < cap) (hcapL : cap < L)
    (hLk : L = 2 ^ k) (hk : k ≤ 63) (n : Nat) :
    pos cap L (n + cap) = (pos cap L n + L) % usizeMod := by
  have hW : usizeMod = 2 ^ 64 := rfl
  have hL0 : 0 < L := by omega
  have hdW : L ∣ usizeMod := by rw [hLk, hW]; exact pow_dvd_pow 2 (by omega)
  obtain ⟨hx1, hx3, hx4⟩ := pos_parts hcap hcapL hLk hk n
  have hm : (n + cap) % cap = n % cap := Nat.add_mod_right n cap
  have hd : (n + cap) / cap = n / cap + 1 := Nat.add_div_right n hcap
  obtain ⟨hy1, _, _⟩ := pos_parts hcap hcapL hLk hk (n + cap)
  have hL63 : L ≤ 2 ^ 63 := by rw [hLk]; exact Nat.pow_le_pow_right (by norm_num) hk
  have hLW : L < usizeMod := by omega
  have hr : n % cap < cap := Nat.mod_lt _ hcap
  have hstep : ((n / cap + 1) * L) % usizeMod
      = ((n / cap * L) % usizeMod + L) % usizeMod := by
    rw [Nat.add_mul, Nat.one_mul, Nat.add_mod, Nat.mod_eq_of_lt hLW]
  rw [hy1, hm, hd, hx1, hstep]
  rcases Nat.eq_or_lt_of_le hx4 with heq | hlt
  · -- the lap part is the last multiple of L below 2^64: both sides wrap
    have h2 : (n / cap * L) % usizeMod + n % cap + L = n % cap + usizeMod := by omega
    rw [heq, h2, Nat.mod_self, Nat.zero_add, Nat.add_mod_right]
    exact (Nat.mod_eq_of_lt (by omega)).symm
  · -- no wrap: the next lap part is still at least L below 2^64
    have hd2 : L ∣ (n / cap * L) % usizeMod + L := by
      obtain ⟨t, ht⟩ := hx3
      exact ⟨t + 1, by rw [ht, Nat.mul_add, Nat.mul_one]⟩
    have h5 : (n / cap * L) % usizeMod + L + L ≤ usizeMod :=
      mult_lt_bound hL0 hd2 hdW hlt
    have e1 : ((n / cap * L) % usizeMod + L) % usizeMod
        = (n / cap * L) % usizeMod + L := Nat.mod_eq_of_lt (by omega)
    have e2 : ((n / cap * L) % usizeMod + n % cap + L) % usizeMod
        = (n / cap * L) % usizeMod + n % cap + L := Nat.mod_eq_of_lt (by omega)
    rw [e1, e2]
    omega

/-- `pos + one_lap` (wrapped) is never `pos + 1`: a full queue is never
mistaken for a pushable slot. -/
theorem pos_add_lap_ne_succ {cap L k : Nat} (hcap : 0 < cap) (hcapL : cap < L)
    (hLk : L = 2 ^ k) (hk : k ≤ 63) (n : Nat) :
    (pos cap L n + L) % usizeMod ≠ pos cap L n + 1 := by
  have hW : usizeMod = 2 ^ 64 := rfl
  have hL0 : 0 < L := by omega
  have hdW : L ∣ usizeMod := by rw [hLk, hW]; exact pow_dvd_pow 2 (by omega)
  obtain ⟨hx1, hx3, hx4⟩ := pos_parts hcap hcapL hLk hk n
  have hr : n % cap < cap := Nat.mod_lt _ hcap
  rcases Nat.eq_or_lt_of_le hx4 with heq | hlt
  · have h3 : pos cap L n + L = n % cap + usizeMod := by omega
    have h4 : (n % cap + usizeMod) % usizeMod = n % cap := by
      rw [Nat.add_mod_right]
      exact Nat.mod_eq_of_lt (by omega)
    rw [h3, h4]
    omega
  · have hd2 : L ∣ (n / cap * L) % usizeMod + L := by
      obtain ⟨t, ht⟩ := hx3
      exact ⟨t + 1, by rw [ht, Nat.mul_add, Nat.mul_one]⟩
    have h5 : (n / cap * L) % usizeMod + L + L ≤ usizeMod :=
      mult_lt_bound hL0 hd2 hdW hlt
    have e1 : (pos cap L n + L) % usizeMod = pos cap L n + L := by
      apply Nat.mod_eq_of_lt
      omega
    rw [e1]
    omega

/-- `pos + one_lap` (wrapped) is never `pos` itself: full and empty states
are distinguishable. -/
theorem pos_add_lap_ne_self {cap L k : Nat} (hcap : 0 < cap) (hcapL : cap < L)
    (hLk : L = 2 ^ k) (hk : k ≤ 63) (n : Nat) :
    (pos cap L n + L) % usizeMod ≠ pos cap L n := by
  have hW : usizeMod = 2 ^ 64 := rfl
  have hL0 : 0 < L := by omega
  have hdW : L ∣ usizeMod := by rw [hLk, hW]; exact pow_dvd_pow 2 (by omega)
  have hL63 : L ≤ 2 ^ 63 := by rw [hLk]; exact Nat.pow_le_pow_right (by norm_num) hk
  obtain ⟨hx1, hx3, hx4⟩ := pos_parts hcap hcapL hLk hk n
  have hr : n % cap < cap := Nat.mod_lt _ hcap
  rcases Nat.eq_or_lt_of_le hx4 with heq | hlt
  · have h3 : pos cap L n + L = n % cap + usizeMod := by omega
    have h4 : (n % cap + usizeMod) % usizeMod = n % cap := by
      rw [Nat.add_mod_right]
      exact Nat.mod_eq_of_lt (by omega)
    rw [h3, h4]
    omega
  · have hd2 : L ∣ (n / cap * L) % usizeMod + L := by
      obtain ⟨t, ht⟩ := hx3
      exact ⟨t + 1, by rw [ht, Nat.mul_add, Nat.mul_one]⟩
    have h5 : (n / cap * L) % usizeMod + L + L ≤ usizeMod :=
      mult_lt_bound hL0 hd2 hdW hlt
    have e1 : (pos cap L n + L) % usizeMod = pos cap L n + L := by
      apply Nat.mod_eq_of_lt
      omega
    rw [e1]
    omega

/-! ### The next-pop and last-push operation numbers of a slot -/

/-- Two operation numbers inside one window of `cap` consecutive numbers with
the same slot index are equal. -/
theorem window_unique {cap a b : Nat} (lo : Nat) (_hcap : 0 < cap) (hm : a % cap = b % cap)
    (ha1 : lo ≤ a) (ha2 : a < lo + cap) (hb1 : lo ≤ b) (hb2 : b < lo + cap) :
    a = b := by
  rcases Nat.lt_trichotomy a b with h | h | h
  · have hd : cap ∣ b - a := (Nat.modEq_iff_dvd' (le_of_lt h)).mp hm
    have := Nat.le_of_dvd (by omega) hd
    omega
  · exact h
  · have hd : cap ∣ a - b := (Nat.modEq_iff_dvd' (le_of_lt h)).mp hm.symm
    have := Nat.le_of_dvd (by omega) hd
    omega

/-- `mSlot` is at least `nq`. -/
theorem mSlot_ge (cap nq i : Nat) : nq ≤ mSlot cap nq i := Nat.le_add_right _ _

/-- `mSlot` is less than `nq + cap`. -/
theorem mSlot_lt {cap : Nat} (hcap : 0 < cap) (nq i : Nat) :
    mSlot cap nq i < nq + cap := by
  have := Nat.mod_lt (i + cap - nq % cap) hcap
  simp only [mSlot]
  omega

/-- `mSlot cap nq i` has slot index `i`. -/
theorem mSlot_mod {cap nq i : Nat} (hcap : 0 < cap) (hi : i < cap) :
    mSlot cap nq i % cap = i := by
  have hs : nq % cap < cap := Nat.mod_lt _ hcap
  have hd := Nat.div_add_mod nq cap
  rcases Nat.lt_or_ge i (nq % cap) with hlt | hge
  · have h1 : i + cap - nq % cap < cap := by omega
    have h2 : (i + cap - nq % cap) % cap = i + cap - nq % cap :=
      Nat.mod_eq_of_lt h1
    have h3 : mSlot cap nq i = cap * (nq / cap + 1) + i := by
      simp only [mSlot]
      rw [h2, Nat.mul_succ]
      omega
    rw [h3, Nat.mul_add_mod]
    exact Nat.mod_eq_of_lt hi
  · have h2 : (i + cap - nq % cap) % cap = i - nq % cap := by
      have he : i + cap - nq % cap = (i - nq % cap) + cap := by omega
      rw [he, Nat.add_mod_right]
      exact Nat.mod_eq_of_lt (by omega)
    have h3 : mSlot cap nq i = cap * (nq / cap) + i := by
      simp only [mSlot]
      rw [h2]
      omega
    rw [h3, Nat.mul_add_mod]
    exact Nat.mod_eq_of_lt hi

/-- The unique operation number with index `i` in the window
`[nq, nq + cap)` is `mSlot cap nq i`. -/
theorem mSlot_eq_of {cap nq x : Nat} (hcap : 0 < cap) (h1 : nq ≤ x)
    (h2 : x < nq + cap) : mSlot cap nq (x % cap) = x :=
  window_unique nq hcap
    (by rw [mSlot_mod hcap (Nat.mod_lt _ hcap)])
    (mSlot_ge cap nq _) (mSlot_lt hcap nq _) h1 h2

/-- Popping does not move the next-pop number of the other slots. -/
theorem mSlot_succ_ne {cap nq i : Nat} (hcap : 0 < cap) (hi : i < cap)
    (hne : i ≠ nq % cap) : mSlot cap (nq + 1) i = mSlot cap nq i := by
  have hmod : mSlot cap nq i ≠ nq := by
    intro he
    apply hne
    have hmm := @mSlot_mod cap nq i hcap hi
    rw [he] at hmm
    exact hmm.symm
  have h1 : nq + 1 ≤ mSlot cap nq i := by
    have := mSlot_ge cap nq i
    omega
  exact window_unique (nq + 1) hcap
    (by rw [mSlot_mod hcap hi, mSlot_mod hcap hi])
    (mSlot_ge cap (nq + 1) i) (mSlot_lt hcap (nq + 1) i)
    h1 (by have := mSlot_lt hcap nq i; omega)

/-- The next-pop number of the head slot is `nq` itself. -/
theorem mSlot_self {cap nq : Nat} (hcap : 0 < cap) :
    mSlot cap nq (nq % cap) = nq :=
  mSlot_eq_of hcap (le_refl nq) (by omega)

/-- After popping, the next-pop number of the freed slot is one lap later. -/
theorem mSlot_succ_self {cap nq : Nat} (hcap : 0 < cap) :
    mSlot cap (nq + 1) (nq % cap) = nq + cap := by
  have hm : (nq + cap) % cap = nq % cap := Nat.add_mod_right nq cap
  exact window_unique (nq + 1) hcap
    (by rw [mSlot_mod hcap (Nat.mod_lt _ hcap), hm])
    (mSlot_ge cap (nq + 1) _) (mSlot_lt hcap (nq + 1) _)
    (by omega) (by omega)

/-- `lastPush cap np i` (for `i < np`) has index `i % cap`, is below `np`, and
is within `cap` of `np`. -/
theorem lastPush_parts {cap np i : Nat} (hcap : 0 < cap) (hinp : i < np) :
    lastPush cap np i % cap = i % cap ∧ lastPush cap np i < np ∧
      np ≤ lastPush cap np i + cap := by
  have hd := Nat.div_add_mod (np - 1 - i) cap
  have hr : (np - 1 - i) % cap < cap := Nat.mod_lt _ hcap
  refine ⟨?_, ?_, ?_⟩
  · simp only [lastPush]
    rw [Nat.add_mul_mod_self_left]
  · simp only [lastPush]
    generalize hcd : cap * ((np - 1 - i) / cap) = cd at hd ⊢
    omega
  · simp only [lastPush]
    generalize hcd : cap * ((np - 1 - i) / cap) = cd at hd ⊢
    omega

/-- The unique operation number with index `i` in the window
`[np - cap, np)` of most recent pushes is `lastPush cap np i`. -/
theorem lastPush_eq_of {cap np x : Nat} (hcap : 0 < cap) (h1 : x < np)
    (h2 : np ≤ x + cap) : lastPush cap np (x % cap) = x := by
  have hx : x % cap < np := lt_of_le_of_lt (Nat.mod_le x cap) h1
  obtain ⟨hm, hlt, hge⟩ := lastPush_parts hcap hx
  have hmm : lastPush cap np (x % cap) % cap = x % cap := by
    rw [hm, Nat.mod_mod_of_dvd x (dvd_refl cap)]
  rcases Nat.lt_or_ge np cap with hnp | hnp
  · exact window_unique 0 hcap hmm (Nat.zero_le _) (by omega)
      (Nat.zero_le _) (by omega)
  · exact window_unique (np - cap) hcap hmm (by omega) (by omega)
      (by omega) (by omega)

/-! ### List helpers -/

/-- Reading an in-range element of a mapped range. -/
theorem getD_range_map {n i : Nat} (f : Nat → Slot α) (h : i < n) (d : Slot α) :
    ((List.range n).map f).getD i d = f i := by
  rw [List.getD_eq_getElem?_getD, List.getElem?_map, List.getElem?_range h]
  rfl

/-- Setting one element of a mapped range to the new function value turns it
into the map of the updated function. -/
theorem set_range_map {n i : Nat} (f g : Nat → Slot α) (_hi : i < n) (x : Slot α)
    (hx : g i = x) (hfg : ∀ j, j < n → j ≠ i → f j = g j) :
    ((List.range n).map f).set i x = (List.range n).map g := by
  apply List.ext_getElem
  · simp
  · intro j h1 h2
    rw [List.getElem_set]
    split
    · rename_i hij
      simp only [List.getElem_map, List.getElem_range, ← hij, hx]
    · rename_i hij
      have hjn : j < n := by
        simpa using h2
      simp only [List.getElem_map, List.getElem_range]
      exact hfg j hjn (fun he => hij (by omega))

/-! ### Step theorems on canonical states -/

/-- `pushStep` on a canonical state that is not full: the CAS claims slot
`np % cap`, the value is written, the stamp `tail + 1` is published, and the
state is again canonical with one more successful push. -/
theorem pushStep_canon_ok (cap np nq : Nat) (vals : Nat → α) (v : α)
    (hcap : 0 < cap) (hb : cap + 1 ≤ 2 ^ 63) (h1 : nq ≤ np) (h2 : np < nq + cap) :
    pushStep (mkQueue cap vals np nq) v =
      (mkQueue cap (fun j => if j = np then v else vals j) (np + 1) nq,
       PushOutcome.ok) := by
  obtain ⟨k, hk, hLk, hcapL1, _⟩ := one_lap_spec hcap hb
  have hcapL : cap < 2 ^ k := by omega
  have hnplt : np % cap < cap := Nat.mod_lt _ hcap
  have hm1 : mSlot cap nq (np % cap) = np := mSlot_eq_of hcap h1 (by omega)
  have hstamp : (slotAt cap (2 ^ k) vals np nq (np % cap)).stamp
      = pos cap (2 ^ k) np := by
    simp only [slotAt, hm1, lt_self_iff_false, if_false]
  simp only [pushStep, mkQueue, hLk, capacity, List.length_map, List.length_range,
    pos_land hcap hcapL rfl hk np,
    getD_range_map (slotAt cap (2 ^ k) vals np nq) hnplt default, hstamp]
  simp only [if_true]
  simp only [Prod.mk.injEq, ArrayQueue.mk.injEq]
  refine ⟨⟨by trivial, ?_, ?_, by trivial⟩, by trivial⟩
  · -- the new tail is the position of operation np + 1
    by_cases hw : np % cap + 1 < cap
    · rw [if_pos hw, pos_succ hcap hcapL rfl hk hw]
    · have hw' : np % cap + 1 = cap := by omega
      rw [if_neg hw, pos_lap_land hcap hcapL rfl hk np,
        pos_wrap hcap hcapL rfl hk hw']
  · -- the updated buffer is the canonical buffer with one more push recorded
    apply set_range_map _ _ hnplt
    · -- the claimed slot: stamp pos np + 1, storage the pushed value
      have hlp : lastPush cap (np + 1) (np % cap) = np :=
        lastPush_eq_of hcap (by omega) (by omega)
      have e1 : np < np + 1 := Nat.lt_succ_self np
      have e2 : np % cap < np + 1 := by
        have := Nat.mod_le np cap
        omega
      simp [slotAt, hm1, hlp, e1, e2]
    · -- every other slot is unchanged, and still canonical for np + 1 pushes
      intro j hj hne
      have hmne : mSlot cap nq j ≠ np := by
        intro he
        have hmm := @mSlot_mod cap nq j hcap hj
        rw [he] at hmm
        exact hne hmm.symm
      have hjnp : j ≠ np := by
        intro he
        apply hne
        rw [he, Nat.mod_eq_of_lt (he ▸ hj)]
      simp only [slotAt]
      congr 1
      · by_cases hlt : mSlot cap nq j < np
        · rw [if_pos hlt, if_pos (show mSlot cap nq j < np + 1 by omega)]
        · rw [if_neg hlt, if_neg (show ¬ mSlot cap nq j < np + 1 by omega)]
      · by_cases hjp : j < np
        · rw [if_pos hjp, if_pos (show j < np + 1 by omega)]
          obtain ⟨ha, hb', hc⟩ := lastPush_parts hcap hjp
          have hl1 : lastPush cap np j % cap = j := by
            rw [ha]
            exact Nat.mod_eq_of_lt hj
          have hl3 : lastPush cap np j + cap ≠ np := by
            intro he
            apply hne
            rw [← he, Nat.add_mod_right, hl1]
          have hl4 : lastPush cap (np + 1) j = lastPush cap np j := by
            have h5 := @lastPush_eq_of cap (np + 1) (lastPush cap np j)
              hcap (by omega) (by omega)
            rw [hl1] at h5
            exact h5
          have hl6 : lastPush cap np j ≠ np := by omega
          rw [hl4]
          simp [hl6]
        · rw [if_neg hjp, if_neg (show ¬ j < np + 1 by omega)]

/-- `pushStep` on a canonical full state: the fullness check fires and the
value is handed back with the queue unchanged. -/
theorem pushStep_canon_full (cap np nq : Nat) (vals : Nat → α) (v : α)
    (hcap : 0 < cap) (hb : cap + 1 ≤ 2 ^ 63) (h2 : np = nq + cap) :
    pushStep (mkQueue cap vals np nq) v =
      (mkQueue cap vals np nq, PushOutcome.err v) := by
  obtain ⟨k, hk, hLk, hcapL1, _⟩ := one_lap_spec hcap hb
  have hcapL : cap < 2 ^ k := by omega
  have hnplt : np % cap < cap := Nat.mod_lt _ hcap
  have hmodeq : np % cap = nq % cap := by rw [h2, Nat.add_mod_right]
  have hm1 : mSlot cap nq (np % cap) = nq := by
    rw [hmodeq]
    exact mSlot_self hcap
  have hstamp : (slotAt cap (2 ^ k) vals np nq (np % cap)).stamp
      = pos cap (2 ^ k) nq + 1 := by
    simp only [slotAt, hm1, if_pos (show nq < np by omega)]
  have hpos : pos cap (2 ^ k) np = (pos cap (2 ^ k) nq + 2 ^ k) % usizeMod := by
    rw [h2]
    exact pos_add_cap hcap hcapL rfl hk nq
  have hne1 : pos cap (2 ^ k) np ≠ pos cap (2 ^ k) nq + 1 := by
    rw [hpos]
    exact pos_add_lap_ne_succ hcap hcapL rfl hk nq
  have hb2 : (pos cap (2 ^ k) nq + 1 + 2 ^ k) % usizeMod
      = pos cap (2 ^ k) np + 1 := by
    have hlt := pos_succ_lt hcap hcapL rfl hk np
    have e0 : pos cap (2 ^ k) nq + 1 + 2 ^ k = pos cap (2 ^ k) nq + 2 ^ k + 1 := by
      omega
    rw [e0, Nat.add_mod (pos cap (2 ^ k) nq + 2 ^ k) 1]
    have e1 : (1 : Nat) % usizeMod = 1 := Nat.mod_eq_of_lt (by norm_num [usizeMod])
    rw [e1, ← hpos]
    exact Nat.mod_eq_of_lt hlt
  have hb3 : (pos cap (2 ^ k) nq + 2 ^ k) % usizeMod = pos cap (2 ^ k) np :=
    hpos.symm
  simp only [pushStep, mkQueue, hLk, capacity, List.length_map, List.length_range,
    pos_land hcap hcapL rfl hk np,
    getD_range_map (slotAt cap (2 ^ k) vals np nq) hnplt default, hstamp]
  rw [if_neg hne1, if_pos hb2, if_pos hb3]

/-- `popStep` on a canonical non-empty state: the CAS claims the head slot,
the stored value is read out, the stamp jumps one lap, and the state is again
canonical with one more successful pop. -/
theorem popStep_canon_some (cap np nq : Nat) (vals : Nat → α)
    (hcap : 0 < cap) (hb : cap + 1 ≤ 2 ^ 63) (h2 : nq < np) (h3 : np ≤ nq + cap) :
    popStep (mkQueue cap vals np nq) =
      (mkQueue cap vals np (nq + 1), PopOutcome.popped (some (vals nq))) := by
  obtain ⟨k, hk, hLk, hcapL1, _⟩ := one_lap_spec hcap hb
  have hcapL : cap < 2 ^ k := by omega
  have hnqlt : nq % cap < cap := Nat.mod_lt _ hcap
  have hm1 : mSlot cap nq (nq % cap) = nq := mSlot_self hcap
  have hvlt : nq % cap < np := lt_of_le_of_lt (Nat.mod_le nq cap) h2
  have hlp : lastPush cap np (nq % cap) = nq := lastPush_eq_of hcap h2 h3
  have hslot : slotAt cap (2 ^ k) vals np nq (nq % cap)
      = { stamp := pos cap (2 ^ k) nq + 1, value := some (vals nq) } := by
    simp only [slotAt, hm1, hlp, if_pos h2, if_pos hvlt]
  simp only [popStep, mkQueue, hLk, capacity, List.length_map, List.length_range,
    pos_land hcap hcapL rfl hk nq,
    getD_range_map (slotAt cap (2 ^ k) vals np nq) hnqlt default, hslot]
  simp only [if_true]
  simp only [Prod.mk.injEq, ArrayQueue.mk.injEq]
  refine ⟨⟨?_, by trivial, ?_, by trivial⟩, by trivial⟩
  · -- the new head is the position of operation nq + 1
    by_cases hw : nq % cap + 1 < cap
    · rw [if_pos hw, pos_succ hcap hcapL rfl hk hw]
    · have hw' : nq % cap + 1 = cap := by omega
      rw [if_neg hw, pos_lap_land hcap hcapL rfl hk nq,
        pos_wrap hcap hcapL rfl hk hw']
  · -- the updated buffer is the canonical buffer with one more pop recorded
    apply set_range_map _ _ hnqlt
    · have hm2 : mSlot cap (nq + 1) (nq % cap) = nq + cap := mSlot_succ_self hcap
      have hnotlt : ¬ nq + cap < np := by omega
      simp only [slotAt, hm2, hlp, if_neg hnotlt, if_pos hvlt]
      rw [pos_add_cap hcap hcapL rfl hk nq]
    · intro j hj hne
      have hm3 : mSlot cap (nq + 1) j = mSlot cap nq j := mSlot_succ_ne hcap hj hne
      simp only [slotAt, hm3]

/-- `popStep` on a canonical empty state: the emptiness check fires and the
queue is unchanged. -/
theorem popStep_canon_empty (cap nq : Nat) (vals : Nat → α)
    (hcap : 0 < cap) (hb : cap + 1 ≤ 2 ^ 63) :
    popStep (mkQueue cap vals nq nq) = (mkQueue cap vals nq nq, PopOutcome.empty) := by
  obtain ⟨k, hk, hLk, hcapL1, _⟩ := one_lap_spec hcap hb
  have hcapL : cap < 2 ^ k := by omega
  have hnqlt : nq % cap < cap := Nat.mod_lt _ hcap
  have hm1 : mSlot cap nq (nq % cap) = nq := mSlot_self hcap
  have hstamp : (slotAt cap (2 ^ k) vals nq nq (nq % cap)).stamp
      = pos cap (2 ^ k) nq := by
    simp only [slotAt, hm1, lt_self_iff_false, if_false]
  simp only [popStep, mkQueue, hLk, capacity, List.length_map, List.length_range,
    pos_land hcap hcapL rfl hk nq,
    getD_range_map (slotAt cap (2 ^ k) vals nq nq) hnqlt default, hstamp]
  rw [if_neg (show ¬ pos cap (2 ^ k) nq + 1 = pos cap (2 ^ k) nq by omega)]
  simp

/-! ### Reachability: every reachable state is canonical -/

/-- A fresh queue is the canonical state with no pushes and no pops (the
uninitialised storage makes the recorded values irrelevant). -/
theorem new_canon (cap : Nat) (vals : Nat → α) (hcap : 0 < cap)
    (hb : cap + 1 ≤ 2 ^ 63) :
    ArrayQueue.new cap = some (mkQueue cap vals 0 0) := by
  have hW : usizeMod = 2 ^ 64 := rfl
  have hpos0 : pos cap (nextPowerOfTwo (cap + 1)) 0 = 0 := by
    simp [pos]
  simp only [ArrayQueue.new, mkQueue, hpos0]
  rw [if_neg (show ¬ (cap = 0 ∨ 2 ^ 63 < cap + 1) by omega)]
  simp only [Option.some.injEq, ArrayQueue.mk.injEq]
  refine ⟨by trivial, by trivial, ?_, by trivial⟩
  apply List.map_congr_left
  intro i hi
  rw [List.mem_range] at hi
  have hm : mSlot cap 0 i = i := by
    simp only [mSlot, Nat.zero_mod, Nat.sub_zero, Nat.add_mod_right, Nat.zero_add]
    exact Nat.mod_eq_of_lt hi
  have hp : pos cap (nextPowerOfTwo (cap + 1)) i = i := by
    rw [pos, Nat.div_eq_of_lt hi, Nat.zero_mul, Nat.zero_add, Nat.mod_eq_of_lt hi]
    exact Nat.mod_eq_of_lt (by omega)
  simp only [slotAt, hm, hp]
  rw [if_neg (show ¬ i < 0 by omega), if_neg (show ¬ i < 0 by omega)]

/-- Running any operation sequence from a canonical state stays canonical,
with the success counters tracking the canonical indices. -/
theorem runStats_canon (cap : Nat) (hcap : 0 < cap) (hb : cap + 1 ≤ 2 ^ 63) :
    ∀ (ops : List (Op α)) (np nq : Nat) (vals : Nat → α),
      nq ≤ np → np ≤ nq + cap →
      ∃ (np' nq' : Nat) (vals' : Nat → α), nq' ≤ np' ∧ np' ≤ nq' + cap ∧
        runStats (mkQueue cap vals np nq, np, nq) ops
          = (mkQueue cap vals' np' nq', np', nq') := by
  intro ops
  induction ops with
  | nil =>
      intro np nq vals h1 h2
      exact ⟨np, nq, vals, h1, h2, rfl⟩
  | cons op ops ih =>
      intro np nq vals h1 h2
      cases op with
      | push v =>
          rcases Nat.eq_or_lt_of_le h2 with heq | hlt
          · have hstep := pushStep_canon_full cap np nq vals v hcap hb heq
            simp only [runStats, hstep]
            exact ih np nq vals h1 h2
          · have hstep := pushStep_canon_ok cap np nq vals v hcap hb h1 (by omega)
            simp only [runStats, hstep]
            exact ih (np + 1) nq _ (by omega) (by omega)
      | pop =>
          rcases Nat.eq_or_lt_of_le h1 with heq | hlt
          · have hstep := popStep_canon_empty cap np vals hcap hb
            rw [heq]
            simp only [runStats, hstep]
            exact ih np np vals (le_refl np) (by omega)
          · have hstep := popStep_canon_some cap np nq vals hcap hb hlt h2
            simp only [runStats, hstep]
            exact ih np (nq + 1) vals (by omega) (by omega)

/-- Every reachable state is a canonical state whose indices are the success
counters, with the canonical window invariant `nq ≤ np ≤ nq + cap`. -/
theorem reachable_canon [Inhabited α] {cap np nq : Nat} {q : ArrayQueue α}
    (h : Reachable cap q np nq) :
    0 < cap ∧ cap + 1 ≤ 2 ^ 63 ∧ nq ≤ np ∧ np ≤ nq + cap ∧
      ∃ vals : Nat → α, q = mkQueue cap vals np nq := by
  obtain ⟨q0, ops, hnew, hrun⟩ := h
  obtain ⟨hcap, hb⟩ := new_bounds hnew
  have hq0 : q0 = mkQueue cap (fun _ => (default : α)) 0 0 := by
    have hc := new_canon cap (fun _ => (default : α)) hcap hb
    rw [hnew] at hc
    exact Option.some.inj hc
  obtain ⟨np', nq', vals', hh1, hh2, hh3⟩ :=
    runStats_canon cap hcap hb ops 0 0 (fun _ => (default : α))
      (le_refl 0) (by omega)
  rw [hq0, hh3] at hrun
  have e1 : mkQueue cap vals' np' nq' = q := congrArg Prod.fst hrun
  have e2 : np' = np := congrArg (fun p => p.2.1) hrun
  have e3 : nq' = nq := congrArg (fun p => p.2.2) hrun
  subst e2
  subst e3
  exact ⟨hcap, hb, hh1, hh2, vals', e1.symm⟩

/-! ### Fullness gate (claim C2) -/

/-- C2: for every reachable queue state in which the queue is full (the number
of successfully pushed but not yet popped values equals `cap`), `push(v)`
returns `Err(v)` giving back exactly the value passed in and leaves the queue
state (head, tail, every slot's stamp and stored value) unchanged; and after
one subsequent successful pop, a subsequent push succeeds. -/
theorem c2_full_push_err {α : Type} [Inhabited α] (cap : Nat) (q : ArrayQueue α)
    (np nq : Nat) (h : Reachable cap q np nq) (hfull : np = nq + cap)
    (v w : α) :
    pushStep q v = (q, PushOutcome.err v) ∧
    ∃ (q' : ArrayQueue α) (u : α),
      popStep q = (q', PopOutcome.popped (some u)) ∧
      (pushStep q' w).2 = PushOutcome.ok := by
  obtain ⟨hcap, hb, h1, h2, vals, rfl⟩ := reachable_canon h
  refine ⟨pushStep_canon_full cap np nq vals v hcap hb hfull, ?_⟩
  refine ⟨mkQueue cap vals np (nq + 1), vals nq,
    popStep_canon_some cap np nq vals hcap hb (by omega) (by omega), ?_⟩
  rw [pushStep_canon_ok cap np (nq + 1) vals w hcap hb (by omega) (by omega)]

/-- Witness for C2: a full queue of capacity 1 holding the value 42. -/
theorem c2_full_push_err_witness :
    pushStep (⟨0, 2, [⟨1, some 42⟩], 2⟩ : ArrayQueue Nat) 7
      = (⟨0, 2, [⟨1, some 42⟩], 2⟩, PushOutcome.err 7) := by
  have h := c2_full_push_err 1 (⟨0, 2, [⟨1, some 42⟩], 2⟩ : ArrayQueue Nat) 1 0
    ⟨⟨0, 0, [⟨0, none⟩], 2⟩, [Op.push 42], by decide, by decide⟩ rfl 7 8
  exact h.1

/-! ### Capacity bound (claim C3) -/

/-- C3: for every `cap > 0` and every sequence of push and pop operations
applied to a queue created with `new(cap)`, the number of values currently in
the queue (successful pushes minus successful pops) is always in `[0, cap]`:
it never exceeds `cap` and never goes negative (the pop counter never exceeds
the push counter). -/
theorem c3_capacity_bound {α : Type} [Inhabited α] (cap : Nat)
    (q0 q : ArrayQueue α) (ops : List (Op α)) (np nq : Nat)
    (hnew : ArrayQueue.new cap = some q0)
    (hrun : runStats (q0, 0, 0) ops = (q, np, nq)) :
    nq ≤ np ∧ np ≤ nq + cap := by
  obtain ⟨_, _, h1, h2, _⟩ := reachable_canon ⟨q0, ops, hnew, hrun⟩
  exact ⟨h1, h2⟩

/-- Witness for C3: capacity 1, operations push 1, push 2, pop. -/
theorem c3_capacity_bound_witness : (1 : Nat) ≤ 1 ∧ (1 : Nat) ≤ 1 + 1 := by
  exact c3_capacity_bound 1 ⟨0, 0, [⟨0, none⟩], 2⟩ ⟨2, 2, [⟨2, some 1⟩], 2⟩
    [Op.push 1, Op.push 2, Op.pop] 1 1 (by decide) (by decide)

/-! ### Single-threaded termination (claim C7) -/

/-- C7: push and pop never block: on every reachable queue state, one
sequential iteration of the `push` loop body already returns (`Ok` or
`Err(v)`) and one iteration of the `pop` loop body already returns (`Some` or
`None`) — the `retry` branches of the CAS loops are unreachable without
concurrent interference, so the full retry loops (`pushLoop`/`popLoop`)
return within any iteration budget of at least one, never exhausting their
fuel. -/
theorem c7_never_blocks {α : Type} [Inhabited α] (cap : Nat) (q : ArrayQueue α)
    (np nq : Nat) (h : Reachable cap q np nq) :
    (∀ v : α, (pushStep q v).2 ≠ PushOutcome.retry) ∧
    (popStep q).2 ≠ PopOutcome.retry ∧
    (∀ (v : α) (fuel : Nat), 1 ≤ fuel → pushLoop q v fuel = some (pushStep q v)) ∧
    (∀ fuel : Nat, 1 ≤ fuel → popLoop q fuel = some (popStep q)) := by
  have hpush : ∀ v : α, (pushStep q v).2 ≠ PushOutcome.retry := by
    obtain ⟨hcap, hb, h1, h2, vals, rfl⟩ := reachable_canon h
    intro v
    rcases Nat.eq_or_lt_of_le h2 with heq | hlt
    · rw [pushStep_canon_full cap np nq vals v hcap hb heq]
      simp
    · rw [pushStep_canon_ok cap np nq vals v hcap hb h1 (by omega)]
      simp
  have hpop : (popStep q).2 ≠ PopOutcome.retry := by
    obtain ⟨hcap, hb, h1, h2, vals, rfl⟩ := reachable_canon h
    rcases Nat.eq_or_lt_of_le h1 with heq | hlt
    · rw [← heq, popStep_canon_empty cap nq vals hcap hb]
      simp
    · rw [popStep_canon_some cap np nq vals hcap hb hlt h2]
      simp
  refine ⟨hpush, hpop, ?_, ?_⟩
  · intro v fuel hfuel
    obtain ⟨fuel, rfl⟩ : ∃ f, fuel = f + 1 := ⟨fuel - 1, by omega⟩
    have hr := hpush v
    rcases he : pushStep q v with ⟨q', r⟩
    rw [he] at hr
    simp only [pushLoop, he]
    cases r with
    | ok => rfl
    | err w => rfl
    | retry => exact absurd rfl hr
  · intro fuel hfuel
    obtain ⟨fuel, rfl⟩ : ∃ f, fuel = f + 1 := ⟨fuel - 1, by omega⟩
    have hr := hpop
    rcases he : popStep q with ⟨q', r⟩
    rw [he] at hr
    simp only [popLoop, he]
    cases r with
    | popped w => rfl
    | empty => rfl
    | retry => exact absurd rfl hr

/-- Witness for C7: the freshly created queue of capacity 1. -/
theorem c7_never_blocks_witness :
    (pushStep (⟨0, 0, [⟨0, none⟩], 2⟩ : ArrayQueue Nat) 5).2 ≠ PushOutcome.retry := by
  exact (c7_never_blocks 1 (⟨0, 0, [⟨0, none⟩], 2⟩ : ArrayQueue Nat) 0 0
    ⟨⟨0, 0, [⟨0, none⟩], 2⟩, [], by decide, by decide⟩).1 5

/-! ### Decoded indices stay in bounds (claim C8) -/

/-- C8: in every queue state reachable from `new(cap)` by any sequence of push
and pop operations, the decoded index of both `head` and `tail`
(`pos & (one_lap - 1)`) is strictly less than `cap`, so the unchecked buffer
accesses in `push` and `pop` (which index the buffer exactly by these masked
values) are always in bounds. -/
theorem c8_decoded_index_lt_cap {α : Type} [Inhabited α] (cap : Nat)
    (q : ArrayQueue α) (np nq : Nat) (h : Reachable cap q np nq) :
    q.head &&& (q.one_lap - 1) < capacity q ∧
    q.tail &&& (q.one_lap - 1) < capacity q := by
  obtain ⟨hcap, hb, h1, h2, vals, rfl⟩ := reachable_canon h
  obtain ⟨k, hk, hLk, hcapL1, _⟩ := one_lap_spec hcap hb
  have hcapL : cap < 2 ^ k := by omega
  constructor
  · show (mkQueue cap vals np nq).head &&& ((mkQueue cap vals np nq).one_lap - 1)
      < capacity (mkQueue cap vals np nq)
    simp only [mkQueue, capacity, List.length_map, List.length_range, hLk]
    rw [pos_land hcap hcapL rfl hk nq]
    exact Nat.mod_lt _ hcap
  · show (mkQueue cap vals np nq).tail &&& ((mkQueue cap vals np nq).one_lap - 1)
      < capacity (mkQueue cap vals np nq)
    simp only [mkQueue, capacity, List.length_map, List.length_range, hLk]
    rw [pos_land hcap hcapL rfl hk np]
    exact Nat.mod_lt _ hcap

/-- Witness for C8: the queue of capacity 1 after one push. -/
theorem c8_decoded_index_lt_cap_witness :
    (⟨0, 2, [⟨1, some 42⟩], 2⟩ : ArrayQueue Nat).tail
      &&& ((⟨0, 2, [⟨1, some 42⟩], 2⟩ : ArrayQueue Nat).one_lap - 1)
      < capacity (⟨0, 2, [⟨1, some 42⟩], 2⟩ : ArrayQueue Nat) := by
  exact (c8_decoded_index_lt_cap 1 (⟨0, 2, [⟨1, some 42⟩], 2⟩ : ArrayQueue Nat) 1 0
    ⟨⟨0, 0, [⟨0, none⟩], 2⟩, [Op.push 42], by decide, by decide⟩).2

/-! ### Initial state (claim C4) -/

/-- C4: for every `cap > 0` (within the range where construction can complete:
`(cap + 1).next_power_of_two()` overflows for `cap + 1 > 2 ^ 63`, and a
64-bit address space cannot hold `2 ^ 63` slots in any case), `new(cap)`
creates a queue with exactly `cap` slots where slot `i` has stamp `i` for
every `i` in `0..cap`, head and tail both equal 0, and `capacity()` returns
`cap`. -/
theorem c4_new_initial_state (α : Type) (cap : Nat) (hcap : 0 < cap)
    (hof : cap + 1 ≤ 2 ^ 63) :
    ∃ q : ArrayQueue α, ArrayQueue.new cap = some q ∧ capacity q = cap ∧
      q.head = 0 ∧ q.tail = 0 ∧
      ∀ i, i < cap → (q.buffer.getD i default).stamp = i := by
  refine ⟨{ head := 0
            tail := 0
            buffer := (List.range cap).map fun i => { stamp := i, value := none }
            one_lap := nextPowerOfTwo (cap + 1) }, ?_, ?_, rfl, rfl, ?_⟩
  · simp only [ArrayQueue.new]
    rw [if_neg (show ¬ (cap = 0 ∨ 2 ^ 63 < cap + 1) by omega)]
  · simp [capacity]
  · intro i hi
    rw [getD_range_map _ hi]

/-- Witness for C4: capacity 4. -/
theorem c4_new_initial_state_witness :
    ∃ q : ArrayQueue Nat, ArrayQueue.new 4 = some q ∧ capacity q = 4 := by
  obtain ⟨q, hq, hcapq, -, -, -⟩ :=
    c4_new_initial_state Nat 4 (by norm_num) (by norm_num)
  exact ⟨q, hq, hcapq⟩

/-! ### The one_lap field (claim C5) -/

/-- C5: for every `cap > 0`, the `one_lap` field of the queue computed by
`new(cap)` is `next_power_of_two(cap + 1)` and equals the smallest power of
two strictly greater than `cap` (the particular case `cap = 3`, where it is 4,
is the witness below). -/
theorem c5_one_lap_smallest_pow (α : Type) (cap : Nat) (q : ArrayQueue α)
    (hq : ArrayQueue.new cap = some q) :
    q.one_lap = nextPowerOfTwo (cap + 1) ∧
    (∃ k, q.one_lap = 2 ^ k) ∧ cap < q.one_lap ∧
    ∀ (m k' : Nat), m = 2 ^ k' → cap < m → q.one_lap ≤ m := by
  obtain ⟨hcap, hb⟩ := new_bounds hq
  obtain ⟨k, hk, hLk, hge, hmin⟩ := one_lap_spec hcap hb
  have hol : q.one_lap = nextPowerOfTwo (cap + 1) := by rw [new_eq hq]
  refine ⟨hol, ⟨k, by rw [hol, hLk]⟩, by rw [hol]; omega, ?_⟩
  intro m k' hm hcm
  rw [hol, hLk, hm]
  exact Nat.pow_le_pow_right (by norm_num) (hmin k' (by omega))

/-- Witness for C5: for `cap = 3` the `one_lap` field equals 4. -/
theorem c5_one_lap_smallest_pow_witness :
    (⟨0, 0, [⟨0, none⟩, ⟨1, none⟩, ⟨2, none⟩], 4⟩ : ArrayQueue Nat).one_lap = 4 := by
  have h := c5_one_lap_smallest_pow Nat 3
    (⟨0, 0, [⟨0, none⟩, ⟨1, none⟩, ⟨2, none⟩], 4⟩ : ArrayQueue Nat) (by decide)
  rw [h.1]
  decide

/-! ### Drop walk (claim C6) -/

/-- On a canonical state, the `Drop` walk visits exactly the slot indices of
the occupied positions `nq, nq + 1, …, np - 1`, in order. -/
theorem dropIndices_canon (cap np nq : Nat) (vals : Nat → α)
    (hcap : 0 < cap) (hb : cap + 1 ≤ 2 ^ 63) (h1 : nq ≤ np) (h2 : np ≤ nq + cap) :
    dropIndices (mkQueue cap vals np nq)
      = (List.range (np - nq)).map (fun j => (nq + j) % cap) := by
  obtain ⟨k, hk, hLk, hcapL1, _⟩ := one_lap_spec hcap hb
  have hcapL : cap < 2 ^ k := by omega
  have hs : nq % cap < cap := Nat.mod_lt _ hcap
  obtain ⟨d, hnp⟩ : ∃ d, np = nq + d := ⟨np - nq, by omega⟩
  have hdc : d ≤ cap := by omega
  have hd : np - nq = d := by omega
  have htix : np % cap = (nq % cap + d) % cap := by
    rw [hnp]
    exact (Nat.mod_add_mod nq cap d).symm
  simp only [dropIndices, mkQueue, hLk, capacity, List.length_map,
    List.length_range, pos_land hcap hcapL rfl hk np,
    pos_land hcap hcapL rfl hk nq, hd]
  have hlen : (if nq % cap < np % cap then np % cap - nq % cap
      else if np % cap < nq % cap then cap - nq % cap + np % cap
      else if pos cap (2 ^ k) np = pos cap (2 ^ k) nq then 0 else cap) = d := by
    rcases Nat.lt_or_ge (nq % cap + d) cap with hc | hc
    · have ht2 : np % cap = nq % cap + d := by
        rw [htix]
        exact Nat.mod_eq_of_lt hc
      rcases Nat.eq_zero_or_pos d with hd0 | hd0
      · have hnpq : np = nq := by omega
        rw [ht2, if_neg (show ¬ nq % cap < nq % cap + d by omega),
          if_neg (show ¬ nq % cap + d < nq % cap by omega),
          if_pos (show pos cap (2 ^ k) np = pos cap (2 ^ k) nq by rw [hnpq])]
        omega
      · rw [ht2, if_pos (show nq % cap < nq % cap + d by omega)]
        omega
    · have ht2 : np % cap = nq % cap + d - cap := by
        rw [htix]
        have he : nq % cap + d = (nq % cap + d - cap) + cap := by omega
        conv_lhs => rw [he]
        rw [Nat.add_mod_right]
        exact Nat.mod_eq_of_lt (show nq % cap + d - cap < cap by omega)
      rcases Nat.eq_or_lt_of_le hdc with hdcap | hdlt
      · have ht3 : np % cap = nq % cap := by omega
        have hne : pos cap (2 ^ k) np ≠ pos cap (2 ^ k) nq := by
          rw [hnp, hdcap, pos_add_cap hcap hcapL rfl hk nq]
          exact pos_add_lap_ne_self hcap hcapL rfl hk nq
        rw [ht3, if_neg (show ¬ nq % cap < nq % cap by omega),
          if_neg (show ¬ nq % cap < nq % cap by omega), if_neg hne]
        omega
      · rw [ht2, if_neg (show ¬ nq % cap < nq % cap + d - cap by omega),
          if_pos (show nq % cap + d - cap < nq % cap by omega)]
        omega
  rw [hlen]
  apply List.map_congr_left
  intro j hj
  rw [List.mem_range] at hj
  have hmod : (nq + j) % cap = (nq % cap + j) % cap :=
    (Nat.mod_add_mod nq cap j).symm
  rcases Nat.lt_or_ge (nq % cap + j) cap with hc | hc
  · rw [if_pos hc, hmod, Nat.mod_eq_of_lt hc]
  · have he : nq % cap + j = (nq % cap + j - cap) + cap := by omega
    have hm2 : (nq % cap + j) % cap = nq % cap + j - cap := by
      conv_lhs => rw [he]
      rw [Nat.add_mod_right]
      exact Nat.mod_eq_of_lt (by omega)
    rw [if_neg (show ¬ nq % cap + j < cap by omega), hmod, hm2]

/-- C6: when a reachable queue is dropped, the number of destroyed slots
equals the source's count rule over the decoded indices (`tix - hix`;
`cap - hix + tix`; `0` when the decoded indices agree and `head == tail`;
`cap` when they agree and `head != tail`), this number is exactly the number
`np - nq` of currently occupied slots, and exactly the occupied slots are
destroyed, each exactly once, with no destructor ever run on a slot that is
not occupied. -/
theorem c6_drop_exactly_occupied {α : Type} [Inhabited α] (cap : Nat)
    (q : ArrayQueue α) (np nq : Nat) (h : Reachable cap q np nq) :
    ((dropIndices q).length =
      (let hix := q.head &&& (q.one_lap - 1)
       let tix := q.tail &&& (q.one_lap - 1)
       if hix < tix then tix - hix
       else if tix < hix then capacity q - hix + tix
       else if q.tail = q.head then 0
       else capacity q)) ∧
    (dropIndices q).length = np - nq ∧
    (dropIndices q).Nodup ∧
    ∀ i : Nat, i ∈ dropIndices q ↔ ∃ m, nq ≤ m ∧ m < np ∧ m % cap = i := by
  have hform : (dropIndices q).length =
      (let hix := q.head &&& (q.one_lap - 1)
       let tix := q.tail &&& (q.one_lap - 1)
       if hix < tix then tix - hix
       else if tix < hix then capacity q - hix + tix
       else if q.tail = q.head then 0
       else capacity q) := by
    simp only [dropIndices, List.length_map, List.length_range]
  obtain ⟨hcap, hb, h1, h2, vals, rfl⟩ := reachable_canon h
  refine ⟨hform, ?_, ?_, ?_⟩
  · rw [dropIndices_canon cap np nq vals hcap hb h1 h2, List.length_map,
      List.length_range]
  · rw [dropIndices_canon cap np nq vals hcap hb h1 h2]
    refine List.Nodup.map_on ?_ (List.nodup_range _)
    intro x hx y hy hxy
    rw [List.mem_range] at hx hy
    have := window_unique nq hcap hxy (by omega) (by omega)
      (by omega) (by omega)
    omega
  · intro i
    rw [dropIndices_canon cap np nq vals hcap hb h1 h2]
    constructor
    · intro hi
      obtain ⟨j, hj, hji⟩ := List.mem_map.mp hi
      rw [List.mem_range] at hj
      exact ⟨nq + j, by omega, by omega, hji⟩
    · rintro ⟨m, hm1, hm2, hm3⟩
      apply List.mem_map.mpr
      refine ⟨m - nq, ?_, ?_⟩
      · rw [List.mem_range]
        omega
      · have he : nq + (m - nq) = m := by omega
        rw [he, hm3]

/-- Witness for C6: a queue of capacity 2 holding one value destroys exactly
one slot. -/
theorem c6_drop_exactly_occupied_witness :
    (dropIndices (⟨0, 1, [⟨1, some 42⟩, ⟨1, none⟩], 4⟩ : ArrayQueue Nat)).length
      = 1 - 0 := by
  exact (c6_drop_exactly_occupied 2
    (⟨0, 1, [⟨1, some 42⟩, ⟨1, none⟩], 4⟩ : ArrayQueue Nat) 1 0
    ⟨⟨0, 0, [⟨0, none⟩, ⟨1, none⟩], 4⟩, [Op.push 42], by decide, by decide⟩).2.1

end LFQueue
